import Mathlib

/-
Verification development for the ParamNN repository (models.py).

The program works with aligned arrays: a feature matrix X whose last
column is the "mass" parameter, a binary label array y (1 = signal,
0 = background) and a per-event weight array w.  We embed an aligned
row of these arrays as an event record `Ev`; a sample is a `List Ev`.
Elementwise numpy masks such as `(y==1)&(X[:,-1]==m)` become Boolean
predicates on events, numpy fancy-assignment `w[mask] = w[mask] * c`
becomes `scaleWhere`, and `sum(w[mask])` becomes `sumWhere`.

Machine floats are embedded as exact rationals.  NB on division by
zero: in NumPy, dividing a float by zero emits a RuntimeWarning and
yields inf/nan — it does not raise — so every embedded operation is
total; in ℚ the convention is q / 0 = 0.  Under the preconditions of
the claims no division by zero occurs, and where one is exercised
deliberately (claim C7) the resulting factor multiplies an empty
selection, so its numeric value is irrelevant in both semantics.
-/

/-- One event: feature vector, mass parameter (the last feature /
the "mass" column of the DataFrame), binary label (`true` = signal,
i.e. `y == 1`), and weight. -/
structure Ev where
  feats : List ℚ
  mass : ℚ
  label : Bool
  weight : ℚ
deriving DecidableEq

/-- Mask `y == 1`. -/
def isSig (e : Ev) : Bool := e.label

/-- Mask `y == 0`. -/
def isBkg (e : Ev) : Bool := !e.label

/-- Mask `(y==1) & (X[:,-1]==m)`. -/
def sigAt (m : ℚ) (e : Ev) : Bool := e.label && decide (e.mass = m)

/-- Mask `(y==0) & (X[:,-1]==m)`. -/
def bkgAt (m : ℚ) (e : Ev) : Bool := !e.label && decide (e.mass = m)

/-- Embeds `sum(w[mask])`. -/
def sumWhere (p : Ev → Bool) (evs : List Ev) : ℚ :=
  ((evs.filter p).map Ev.weight).sum

/-- Embeds the in-place update `w[mask] = w[mask] * c`. -/
def scaleWhere (p : Ev → Bool) (c : ℚ) (evs : List Ev) : List Ev :=
  evs.map (fun e => if p e then { e with weight := e.weight * c } else e)

/-- `avg_sig_sumw = sum(w[y==1]) / len(self.train_masses)`
(models.py line 35).  The analogous `avg_bkg_sumw` of line 36 is
computed by the source but never used afterwards, so it is omitted. -/
def avgSigSumw (masses : List ℚ) (evs : List Ev) : ℚ :=
  sumWhere isSig evs / (masses.length : ℚ)

/-- One iteration of the loop of models.py lines 37-39: rescale the
signal weights at mass `m` by `avg / sum(w[sig at m])`, then the
background weights at `m` by `avg / sum(w[bkg at m])` — note the
numerator is the signal average in both statements, exactly as in the
source. -/
def eqStep (avg : ℚ) (evs : List Ev) (m : ℚ) : List Ev :=
  let evs1 := scaleWhere (sigAt m) (avg / sumWhere (sigAt m) evs) evs
  scaleWhere (bkgAt m) (avg / sumWhere (bkgAt m) evs1) evs1

/-- The per-mass equalisation loop of models.py lines 35-39. -/
def perMassStage (masses : List ℚ) (evs : List Ev) : List Ev :=
  masses.foldl (eqStep (avgSigSumw masses evs)) evs

/-- The global signal/background rescale of models.py lines 41-46;
when `norm` is `None` it defaults to the current signal weight sum
(computed before the rescale, line 42-43). -/
def globalStage (norm : Option ℚ) (evs : List Ev) : List Ev :=
  let n := norm.getD (sumWhere isSig evs)
  let evs1 := scaleWhere isSig (n / sumWhere isSig evs) evs
  scaleWhere isBkg (n / sumWhere isBkg evs1) evs1

/-- `Model.equaliseWeights` (models.py lines 33-47). -/
def equaliseWeights (masses : List ℚ) (evs : List Ev) (norm : Option ℚ) :
    List Ev :=
  globalStage norm (perMassStage masses evs)

/-- Spec-side counterpart of `equaliseWeights` following the words of
spec §4.1 / §7: when some configured mass point lacks a signal or
background subgroup of positive weight sum, the division by zero is a
fatal configuration error aborting immediately; otherwise behave as
the weight equalisation.  Used only to compare the spec's claimed
error behaviour with the source's actual (total) behaviour. -/
def equaliseWeightsSpecAbort (masses : List ℚ) (evs : List Ev)
    (norm : Option ℚ) : Except String (List Ev) :=
  if masses.all (fun m =>
      decide (0 < sumWhere (sigAt m) evs) && decide (0 < sumWhere (bkgAt m) evs)) then
    Except.ok (equaliseWeights masses evs norm)
  else
    Except.error "division by zero in weight equalisation"

/-- Overwrite of the "mass" column: `X_bkg_c.loc[:, "mass"] = m`. -/
def setMass (m : ℚ) (e : Ev) : Ev := { e with mass := m }

/-- `Model.inflateBkgWithMasses` (models.py lines 90-106): split the
sample into signal and background, start the block list with the
signal block, append one mass-overwritten copy of the background per
configured mass, and concatenate. -/
def inflateBkgWithMasses (masses : List ℚ) (evs : List Ev) : List Ev :=
  let sig := evs.filter isSig
  let bkg := evs.filter isBkg
  (masses.foldl (fun acc m => acc ++ [bkg.map (setMass m)]) [sig]).flatten

/-- Number of iterations of `range(0, n, b)` for `b > 0`, i.e.
⌈n / b⌉.  (Python raises for `b = 0`; no claim uses `b = 0`.) -/
def numBatches (n b : ℕ) : ℕ := (n + b - 1) / b

/-- The slice `xs[i*b : i*b + b]`. -/
def sliceB {α : Type} (xs : List α) (i b : ℕ) : List α :=
  (xs.drop (i * b)).take b

/-- NumPy fancy indexing `xs[ids]`; out-of-range indices (which do
not occur when `ids` is a permutation of `range n`) give `d`. -/
def npTake {α : Type} (d : α) (ids : List ℕ) (xs : List α) : List α :=
  ids.map (fun i => xs.getD i d)

/-- `ParamNN.getBatches` (models.py lines 175-194).  The random
permutation drawn by `np.random.permutation` under `shuffle=True` is
made explicit: `shuffleIds = some ids` embeds the shuffling call with
that permutation, `none` embeds `shuffle=False`.  The conversion of
each slice to a torch tensor and the `reshape(-1, X.shape[1])` leave
the row content and order unchanged and are not represented.  As in
the source, the loop bound uses the length of the original `X`. -/
def getBatches (X : List (List ℚ)) (y w : List ℚ) (b : ℕ)
    (shuffleIds : Option (List ℕ)) :
    List (List (List ℚ) × List ℚ × List ℚ) :=
  let Xs := match shuffleIds with | some ids => npTake [] ids X | none => X
  let ys := match shuffleIds with | some ids => npTake 0 ids y | none => y
  let ws := match shuffleIds with | some ids => npTake 0 ids w | none => w
  (List.range (numBatches X.length b)).map
    (fun i => (sliceB Xs i b, sliceB ys i b, sliceB ws i b))

/-- NumPy `.min()` of an array (raises on an empty array; the claims
only evaluate it on non-empty lists, where the default 0 is unused). -/
def npMin : List ℚ → ℚ
  | [] => 0
  | x :: xs => xs.foldl min x

/-- NumPy `.max()` of an array, same convention as `npMin`. -/
def npMax : List ℚ → ℚ
  | [] => 0
  | x :: xs => xs.foldl max x

/-- `np.where(l == v)[0][0]`: index of the first occurrence of `v`
(the source only evaluates it at `v` = the minimum of `l`, which is
present; the default for an absent value is the length). -/
def firstIdxOf (v : ℚ) : List ℚ → ℕ
  | [] => 0
  | x :: xs => if x = v then 0 else firstIdxOf v xs + 1

/-- The slice `l[-g:]` for `g : ℕ`; NB the Python quirk that
`l[-0:]` is the whole list. -/
def npLastSlice (l : List ℚ) (g : ℕ) : List ℚ :=
  if g = 0 then l else l.drop (l.length - g)

/-- The slice `l[:-g]` for `g : ℕ`; NB `l[:-0]` is empty. -/
def npInitSlice (l : List ℚ) (g : ℕ) : List ℚ :=
  if g = 0 then [] else l.take (l.length - g)

/-- Column `i` of the loss history: `losses[:, i]`. -/
def colAt (losses : List (List ℚ)) (i : ℕ) : List ℚ :=
  losses.map (fun r => r.getD i 0)

/-- Entry of the loss history at epoch `a` (0-based) and mass index
`i`, with out-of-range default 0; used to state shape hypotheses. -/
def entryAt (losses : List (List ℚ)) (a i : ℕ) : ℚ :=
  (losses.getD a []).getD i 0

/-- `ParamNN.shouldEarlyStop` (models.py lines 196-246).  `losses` is
the history, one row per epoch, one column per configured mass. -/
def shouldEarlyStop (masses : List ℚ) (losses : List (List ℚ))
    (minEpoch grace : ℕ) (tol : ℚ) : Bool :=
  let n := losses.length
  if n < minEpoch then false
  else
    let slosses := losses.map List.sum
    let unstable := decide (grace < n) &&
      (List.range masses.length).any (fun i =>
        let c := colAt losses i
        let best := npMin c
        let window := npLastSlice c grace
        decide (tol < (npMax window - npMin window) / best))
    if unstable then false
    else
      let bestEpoch := firstIdxOf (npMin slosses) slosses + 1
      if grace < n - bestEpoch then true
      else if grace < n then
        let anyGood := (List.range masses.length).any (fun i =>
          let c := colAt losses i
          let best := npMin c
          decide (tol < (npMin (npInitSlice c grace) - best) / best))
        !anyGood
      else false

/-- `ParamNN.shouldSchedulerStep` (models.py lines 248-260).  The
mutable field `self.last_step_epoch` is threaded explicitly: the
result pairs the returned Boolean with the new field value.  Both
subtractions are on epoch counters with minuend ≥ subtrahend whenever
the comparison can succeed, so ℕ truncation agrees with Python. -/
def schedStep (lastStep : ℕ) (losses : List (List ℚ)) : Bool × ℕ :=
  let n := losses.length
  let slosses := losses.map List.sum
  let bestEpoch := firstIdxOf (npMin slosses) slosses + 1
  if 5 < n - bestEpoch ∧ 5 < n - lastStep then (true, n) else (false, lastStep)

/-- A sequence of `shouldSchedulerStep` calls threading
`last_step_epoch`, as the training loop performs once per epoch. -/
def runSched (lastStep : ℕ) : List (List (List ℚ)) → List Bool
  | [] => []
  | h :: hs => (schedStep lastStep h).1 :: runSched (schedStep lastStep h).2 hs

/-- `np.trapz(ys, xs)`: trapezoidal-rule integral of `ys` against
`xs`. -/
def trapz (ys xs : List ℚ) : ℚ :=
  let pts := xs.zip ys
  (List.zipWith (fun p q => (q.1 - p.1) * (p.2 + q.2) / 2) pts pts.tail).sum

/-- `Model.getROC` (models.py lines 108-115) after the external
calls: the prediction and `roc_curve` are collaborators whose outputs
`fpr`, `tpr` are inputs here, and the `roc_auc_score` call — the only
statement inside the `try` — is an input that either produced a value
or failed.  The embedded control flow is the try/except: a failure is
replaced by the trapezoidal integral of the curve, never surfaced. -/
def getROC (fpr tpr : List ℚ) (aucResult : Except String ℚ) :
    List ℚ × List ℚ × ℚ :=
  match aucResult with
  | Except.ok a => (fpr, tpr, a)
  | Except.error _ => (fpr, tpr, trapz tpr fpr)

/-- `ParamNN.predict` (models.py lines 352-359): slice the input into
batches, run the model on each batch (the network maps each row of a
batch to one scalar; `f` is that per-row function), and concatenate.
`np.concatenate` raises ValueError on an empty list of arrays, which
is the only failure path and is embedded as the error case. -/
def predict (f : List ℚ → ℚ) (X : List (List ℚ)) (b : ℕ) :
    Except String (List ℚ) :=
  let preds := (List.range (numBatches X.length b)).map
    (fun i => (sliceB X i b).map f)
  if preds.isEmpty then Except.error "need at least one array to concatenate"
  else Except.ok preds.flatten

/-! ### Basic lemmas about masked sums and masked scaling -/

/-- Predicates that do not look at the weight field; all masks used
by the source are of this kind. -/
def WeightInv (p : Ev → Bool) : Prop :=
  ∀ (e : Ev) (c : ℚ), p { e with weight := c } = p e

theorem weightInv_isSig : WeightInv isSig := fun _ _ => rfl

theorem weightInv_isBkg : WeightInv isBkg := fun _ _ => rfl

theorem weightInv_sigAt (m : ℚ) : WeightInv (sigAt m) := fun _ _ => rfl

theorem weightInv_bkgAt (m : ℚ) : WeightInv (bkgAt m) := fun _ _ => rfl

theorem sumWhere_nil (p : Ev → Bool) : sumWhere p [] = 0 := rfl

theorem sumWhere_cons (p : Ev → Bool) (e : Ev) (t : List Ev) :
    sumWhere p (e :: t) = (if p e then e.weight else 0) + sumWhere p t := by
  by_cases h : p e
  · simp [sumWhere, List.filter_cons, h]
  · simp [sumWhere, List.filter_cons, h]

theorem scaleWhere_nil (p : Ev → Bool) (c : ℚ) : scaleWhere p c [] = [] := rfl

theorem scaleWhere_cons (p : Ev → Bool) (c : ℚ) (e : Ev) (t : List Ev) :
    scaleWhere p c (e :: t) =
      (if p e then { e with weight := e.weight * c } else e) :: scaleWhere p c t := by
  by_cases h : p e <;> simp [scaleWhere, h]

theorem sumWhere_scaleWhere_self (p : Ev → Bool) (hp : WeightInv p) (c : ℚ)
    (evs : List Ev) : sumWhere p (scaleWhere p c evs) = sumWhere p evs * c := by
  induction evs with
  | nil => simp [sumWhere_nil, scaleWhere_nil]
  | cons e t ih =>
    rw [scaleWhere_cons, sumWhere_cons, sumWhere_cons]
    by_cases h : p e
    · simp only [h, if_true, hp e, ih]
      ring
    · simp only [h, if_false, Bool.false_eq_true, ih]
      ring

theorem sumWhere_scaleWhere_disjoint (p q : Ev → Bool) (hp : WeightInv p)
    (hdisj : ∀ e, p e = true → q e = false) (c : ℚ) (evs : List Ev) :
    sumWhere p (scaleWhere q c evs) = sumWhere p evs := by
  induction evs with
  | nil => simp [sumWhere_nil, scaleWhere_nil]
  | cons e t ih =>
    rw [scaleWhere_cons, sumWhere_cons, sumWhere_cons]
    by_cases hq : q e
    · have hpe : p e = false := by
        by_contra hc
        have := hdisj e (by revert hc; cases p e <;> simp)
        rw [this] at hq
        exact absurd hq (by simp)
      simp only [hq, if_true, hp e, hpe, Bool.false_eq_true, if_false, ih]
    · simp only [hq, Bool.false_eq_true, if_false, ih]

theorem filter_scaleWhere_disjoint (p q : Ev → Bool) (hp : WeightInv p)
    (hdisj : ∀ e, p e = true → q e = false) (c : ℚ) (evs : List Ev) :
    (scaleWhere q c evs).filter p = evs.filter p := by
  induction evs with
  | nil => rfl
  | cons e t ih =>
    rw [scaleWhere_cons]
    by_cases hq : q e
    · have hpe : p e = false := by
        by_contra hc
        have := hdisj e (by revert hc; cases p e <;> simp)
        rw [this] at hq
        exact absurd hq (by simp)
      simp only [hq, if_true, List.filter_cons, hp e, hpe, Bool.false_eq_true,
        if_false, ih]
    · simp only [hq, Bool.false_eq_true, if_false, List.filter_cons, ih]

theorem sumWhere_nonneg (p : Ev → Bool) (evs : List Ev)
    (hw : ∀ e ∈ evs, 0 ≤ e.weight) : 0 ≤ sumWhere p evs := by
  induction evs with
  | nil => simp [sumWhere_nil]
  | cons e t ih =>
    rw [sumWhere_cons]
    have h0 : 0 ≤ e.weight := hw e (by simp)
    have ht : 0 ≤ sumWhere p t := ih (fun x hx => hw x (by simp [hx]))
    by_cases h : p e
    · simp only [h, if_true]
      linarith
    · simp only [h, Bool.false_eq_true, if_false]
      linarith

theorem scaleWhere_nonneg (p : Ev → Bool) (c : ℚ) (evs : List Ev)
    (hw : ∀ e ∈ evs, 0 ≤ e.weight) (hc : 0 ≤ c) :
    ∀ e ∈ scaleWhere p c evs, 0 ≤ e.weight := by
  intro e he
  rcases List.mem_map.mp he with ⟨x, hx, hxe⟩
  by_cases h : p x
  · rw [← hxe]
    simp only [h, if_true]
    exact mul_nonneg (hw x hx) hc
  · rw [← hxe]
    simp only [h, Bool.false_eq_true, if_false]
    exact hw x hx

theorem sumWhere_mono (p q : Ev → Bool) (evs : List Ev)
    (himp : ∀ e, p e = true → q e = true)
    (hw : ∀ e ∈ evs, 0 ≤ e.weight) :
    sumWhere p evs ≤ sumWhere q evs := by
  induction evs with
  | nil => simp [sumWhere_nil]
  | cons e t ih =>
    rw [sumWhere_cons, sumWhere_cons]
    have ht := ih (fun x hx => hw x (by simp [hx]))
    have h0 : 0 ≤ e.weight := hw e (by simp)
    by_cases h : p e
    · simp only [h, if_true, himp e h, if_true]
      linarith
    · by_cases h2 : q e
      · simp only [h, Bool.false_eq_true, if_false, h2, if_true]
        linarith
      · simp only [h, h2, Bool.false_eq_true, if_false]
        linarith

theorem length_scaleWhere (p : Ev → Bool) (c : ℚ) (evs : List Ev) :
    (scaleWhere p c evs).length = evs.length := by
  simp [scaleWhere]

/-! ### The per-mass equalisation loop -/

theorem sigAt_bkgAt_disjoint (m m' : ℚ) :
    ∀ e, sigAt m e = true → bkgAt m' e = false := by
  intro e h
  simp only [sigAt, Bool.and_eq_true] at h
  simp [bkgAt, h.1]

theorem bkgAt_sigAt_disjoint (m m' : ℚ) :
    ∀ e, bkgAt m e = true → sigAt m' e = false := by
  intro e h
  simp only [bkgAt, Bool.and_eq_true, Bool.not_eq_true'] at h
  simp [sigAt, h.1]

theorem sigAt_sigAt_disjoint (m m' : ℚ) (hne : m ≠ m') :
    ∀ e, sigAt m e = true → sigAt m' e = false := by
  intro e h
  simp only [sigAt, Bool.and_eq_true, decide_eq_true_eq] at h
  simp only [sigAt, Bool.and_eq_false_iff]
  right
  simp [h.2, hne]

theorem bkgAt_bkgAt_disjoint (m m' : ℚ) (hne : m ≠ m') :
    ∀ e, bkgAt m e = true → bkgAt m' e = false := by
  intro e h
  simp only [bkgAt, Bool.and_eq_true, decide_eq_true_eq] at h
  simp only [bkgAt, Bool.and_eq_false_iff]
  right
  simp [h.2, hne]

theorem eqStep_sumWhere_sigAt_self (avg m : ℚ) (evs : List Ev)
    (hs : sumWhere (sigAt m) evs ≠ 0) :
    sumWhere (sigAt m) (eqStep avg evs m) = avg := by
  unfold eqStep
  rw [sumWhere_scaleWhere_disjoint _ _ (weightInv_sigAt m)
        (sigAt_bkgAt_disjoint m m),
      sumWhere_scaleWhere_self _ (weightInv_sigAt m)]
  field_simp

theorem eqStep_sumWhere_bkgAt_self (avg m : ℚ) (evs : List Ev)
    (hb : sumWhere (bkgAt m) evs ≠ 0) :
    sumWhere (bkgAt m) (eqStep avg evs m) = avg := by
  unfold eqStep
  have h1 : sumWhere (bkgAt m)
      (scaleWhere (sigAt m) (avg / sumWhere (sigAt m) evs) evs)
      = sumWhere (bkgAt m) evs :=
    sumWhere_scaleWhere_disjoint _ _ (weightInv_bkgAt m)
      (bkgAt_sigAt_disjoint m m) _ _
  rw [sumWhere_scaleWhere_self _ (weightInv_bkgAt m), h1]
  field_simp

theorem eqStep_sumWhere_sigAt_other (avg m m' : ℚ) (evs : List Ev)
    (hne : m ≠ m') :
    sumWhere (sigAt m) (eqStep avg evs m') = sumWhere (sigAt m) evs := by
  unfold eqStep
  rw [sumWhere_scaleWhere_disjoint _ _ (weightInv_sigAt m)
        (sigAt_bkgAt_disjoint m m'),
      sumWhere_scaleWhere_disjoint _ _ (weightInv_sigAt m)
        (sigAt_sigAt_disjoint m m' hne)]

theorem eqStep_sumWhere_bkgAt_other (avg m m' : ℚ) (evs : List Ev)
    (hne : m ≠ m') :
    sumWhere (bkgAt m) (eqStep avg evs m') = sumWhere (bkgAt m) evs := by
  unfold eqStep
  rw [sumWhere_scaleWhere_disjoint _ _ (weightInv_bkgAt m)
        (bkgAt_bkgAt_disjoint m m' hne),
      sumWhere_scaleWhere_disjoint _ _ (weightInv_bkgAt m)
        (bkgAt_sigAt_disjoint m m')]

theorem foldl_eqStep_untouched (avg m : ℚ) :
    ∀ (ms : List ℚ) (evs : List Ev), m ∉ ms →
      sumWhere (sigAt m) (ms.foldl (eqStep avg) evs) = sumWhere (sigAt m) evs
      ∧ sumWhere (bkgAt m) (ms.foldl (eqStep avg) evs) = sumWhere (bkgAt m) evs := by
  intro ms
  induction ms with
  | nil => intro evs _; exact ⟨rfl, rfl⟩
  | cons m0 rest ih =>
    intro evs hm
    have hne : m ≠ m0 := fun h => hm (h ▸ List.mem_cons_self m0 rest)
    have hrest : m ∉ rest := fun h => hm (List.mem_cons_of_mem m0 h)
    rw [List.foldl_cons]
    rcases ih (eqStep avg evs m0) hrest with ⟨h1, h2⟩
    refine ⟨?_, ?_⟩
    · rw [h1, eqStep_sumWhere_sigAt_other avg m m0 evs hne]
    · rw [h2, eqStep_sumWhere_bkgAt_other avg m m0 evs hne]

theorem eqStep_nonneg (avg m : ℚ) (evs : List Ev) (havg : 0 ≤ avg)
    (hw : ∀ e ∈ evs, 0 ≤ e.weight) :
    ∀ e ∈ eqStep avg evs m, 0 ≤ e.weight := by
  unfold eqStep
  have h1 : ∀ e ∈ scaleWhere (sigAt m) (avg / sumWhere (sigAt m) evs) evs,
      0 ≤ e.weight :=
    scaleWhere_nonneg _ _ _ hw
      (div_nonneg havg (sumWhere_nonneg _ _ hw))
  exact scaleWhere_nonneg _ _ _ h1 (div_nonneg havg (sumWhere_nonneg _ _ h1))

theorem foldl_eqStep_nonneg (avg : ℚ) :
    ∀ (ms : List ℚ) (evs : List Ev), 0 ≤ avg →
      (∀ e ∈ evs, 0 ≤ e.weight) →
      ∀ e ∈ ms.foldl (eqStep avg) evs, 0 ≤ e.weight := by
  intro ms
  induction ms with
  | nil => intro evs _ hw; exact hw
  | cons m0 rest ih =>
    intro evs havg hw
    rw [List.foldl_cons]
    exact ih _ havg (eqStep_nonneg avg m0 evs havg hw)

theorem foldl_eqStep_sums (avg : ℚ) :
    ∀ (ms : List ℚ) (evs : List Ev), ms.Nodup →
      (∀ m ∈ ms, sumWhere (sigAt m) evs ≠ 0) →
      (∀ m ∈ ms, sumWhere (bkgAt m) evs ≠ 0) →
      ∀ m ∈ ms,
        sumWhere (sigAt m) (ms.foldl (eqStep avg) evs) = avg
        ∧ sumWhere (bkgAt m) (ms.foldl (eqStep avg) evs) = avg := by
  intro ms
  induction ms with
  | nil => intro evs _ _ _ m hm; exact absurd hm (List.not_mem_nil m)
  | cons m0 rest ih =>
    intro evs hnd hsig hbkg m hm
    have hm0rest : m0 ∉ rest := (List.nodup_cons.mp hnd).1
    have hndrest : rest.Nodup := (List.nodup_cons.mp hnd).2
    rw [List.foldl_cons]
    rcases List.mem_cons.mp hm with heq | hmem
    · subst heq
      rcases foldl_eqStep_untouched avg m rest (eqStep avg evs m) hm0rest
        with ⟨h1, h2⟩
      refine ⟨?_, ?_⟩
      · rw [h1, eqStep_sumWhere_sigAt_self avg m evs
              (hsig m (List.mem_cons_self m rest))]
      · rw [h2, eqStep_sumWhere_bkgAt_self avg m evs
              (hbkg m (List.mem_cons_self m rest))]
    · have hne : m ≠ m0 := fun h => hm0rest (h ▸ hmem)
      refine ih (eqStep avg evs m0) hndrest ?_ ?_ m hmem
      · intro m' hm'
        have hne' : m' ≠ m0 := fun h => hm0rest (h ▸ hm')
        rw [eqStep_sumWhere_sigAt_other avg m' m0 evs hne']
        exact hsig m' (List.mem_cons_of_mem m0 hm')
      · intro m' hm'
        have hne' : m' ≠ m0 := fun h => hm0rest (h ▸ hm')
        rw [eqStep_sumWhere_bkgAt_other avg m' m0 evs hne']
        exact hbkg m' (List.mem_cons_of_mem m0 hm')

theorem isSig_isBkg_disjoint : ∀ e, isSig e = true → isBkg e = false := by
  intro e h
  simp only [isSig] at h
  simp [isBkg, h]

theorem isBkg_isSig_disjoint : ∀ e, isBkg e = true → isSig e = false := by
  intro e h
  simp only [isBkg, Bool.not_eq_true'] at h
  simp [isSig, h]

theorem sigAt_implies_isSig (m : ℚ) : ∀ e, sigAt m e = true → isSig e = true := by
  intro e h
  simp only [sigAt, Bool.and_eq_true] at h
  exact h.1

theorem bkgAt_implies_isBkg (m : ℚ) : ∀ e, bkgAt m e = true → isBkg e = true := by
  intro e h
  simp only [bkgAt, Bool.and_eq_true] at h
  exact h.1

theorem scaleWhere_one (p : Ev → Bool) (evs : List Ev) :
    scaleWhere p 1 evs = evs := by
  induction evs with
  | nil => rfl
  | cons e t ih =>
    rw [scaleWhere_cons, ih]
    by_cases h : p e <;> simp [h]

/-- Convenience form of `foldl_eqStep_sums` stated on `perMassStage`. -/
theorem perMassStage_sums (masses : List ℚ) (evs : List Ev)
    (hnd : masses.Nodup)
    (hsig : ∀ m ∈ masses, sumWhere (sigAt m) evs ≠ 0)
    (hbkg : ∀ m ∈ masses, sumWhere (bkgAt m) evs ≠ 0) :
    ∀ m ∈ masses,
      sumWhere (sigAt m) (perMassStage masses evs) = avgSigSumw masses evs
      ∧ sumWhere (bkgAt m) (perMassStage masses evs) = avgSigSumw masses evs :=
  foldl_eqStep_sums (avgSigSumw masses evs) masses evs hnd hsig hbkg

/-- C6: in `equaliseWeights`, for each configured mass point the
signal weights at that mass are rescaled so their sum equals
`avg_sig_sumw` (the total signal weight divided by the number of mass
points), and the background weights at that mass are rescaled with
the same signal average `avg_sig_sumw` as numerator, so after the
per-mass stage every (class, mass) subgroup sums to `avg_sig_sumw`. -/
theorem C6_perMass_subgroup_sums (masses : List ℚ) (evs : List Ev)
    (hnd : masses.Nodup)
    (hsig : ∀ m ∈ masses, 0 < sumWhere (sigAt m) evs)
    (hbkg : ∀ m ∈ masses, 0 < sumWhere (bkgAt m) evs) :
    ∀ m ∈ masses,
      sumWhere (sigAt m) (perMassStage masses evs) = avgSigSumw masses evs
      ∧ sumWhere (bkgAt m) (perMassStage masses evs) = avgSigSumw masses evs :=
  perMassStage_sums masses evs hnd
    (fun m hm => ne_of_gt (hsig m hm))
    (fun m hm => ne_of_gt (hbkg m hm))

/-- Witness for C6 on a concrete two-mass sample. -/
theorem C6_perMass_subgroup_sums_witness :
    sumWhere (sigAt 2) (perMassStage [(1 : ℚ), 2]
        [⟨[], 1, true, 1⟩, ⟨[], 1, false, 1⟩, ⟨[], 2, true, 3⟩, ⟨[], 2, false, 1⟩])
      = avgSigSumw [(1 : ℚ), 2]
        [⟨[], 1, true, 1⟩, ⟨[], 1, false, 1⟩, ⟨[], 2, true, 3⟩, ⟨[], 2, false, 1⟩]
    ∧ sumWhere (bkgAt 2) (perMassStage [(1 : ℚ), 2]
        [⟨[], 1, true, 1⟩, ⟨[], 1, false, 1⟩, ⟨[], 2, true, 3⟩, ⟨[], 2, false, 1⟩])
      = avgSigSumw [(1 : ℚ), 2]
        [⟨[], 1, true, 1⟩, ⟨[], 1, false, 1⟩, ⟨[], 2, true, 3⟩, ⟨[], 2, false, 1⟩] :=
  C6_perMass_subgroup_sums [(1 : ℚ), 2]
    [⟨[], 1, true, 1⟩, ⟨[], 1, false, 1⟩, ⟨[], 2, true, 3⟩, ⟨[], 2, false, 1⟩]
    (by decide) (by simp [sumWhere, sigAt]) (by simp [sumWhere, bkgAt]) 2 (by decide)

theorem globalStage_sums (evs : List Ev) (onorm : Option ℚ)
    (hS : sumWhere isSig evs ≠ 0) (hB : sumWhere isBkg evs ≠ 0) :
    sumWhere isSig (globalStage onorm evs) = onorm.getD (sumWhere isSig evs)
    ∧ sumWhere isBkg (globalStage onorm evs) = onorm.getD (sumWhere isSig evs)
    ∧ (onorm = none →
        (globalStage onorm evs).filter isSig = evs.filter isSig) := by
  have hBB : sumWhere isBkg
      (scaleWhere isSig (onorm.getD (sumWhere isSig evs) / sumWhere isSig evs) evs)
      = sumWhere isBkg evs :=
    sumWhere_scaleWhere_disjoint _ _ weightInv_isBkg isBkg_isSig_disjoint _ _
  refine ⟨?_, ?_, ?_⟩
  · simp only [globalStage]
    rw [sumWhere_scaleWhere_disjoint _ _ weightInv_isSig isSig_isBkg_disjoint,
        sumWhere_scaleWhere_self _ weightInv_isSig, mul_comm,
        div_mul_cancel₀ _ hS]
  · simp only [globalStage]
    rw [sumWhere_scaleWhere_self _ weightInv_isBkg, hBB, mul_comm,
        div_mul_cancel₀ _ hB]
  · intro h0
    subst h0
    simp only [globalStage, Option.getD_none]
    rw [div_self hS, scaleWhere_one]
    exact filter_scaleWhere_disjoint _ _ weightInv_isSig isSig_isBkg_disjoint _ _

/-- C1: under the precondition that every configured mass point has a
signal and a background subgroup of positive weight sum (and
non-negative weights), `equaliseWeights` makes the global signal
weight sum and the global background weight sum both equal `norm`;
when `norm` is omitted it defaults to the signal weight sum after the
per-mass stage, so the signal rescale is a no-op (the signal events
are returned exactly as the per-mass stage left them). -/
theorem C1_equaliseWeights_global_norm (masses : List ℚ) (evs : List Ev)
    (onorm : Option ℚ)
    (hne : masses ≠ []) (hnd : masses.Nodup)
    (hw : ∀ e ∈ evs, 0 ≤ e.weight)
    (hsig : ∀ m ∈ masses, 0 < sumWhere (sigAt m) evs)
    (hbkg : ∀ m ∈ masses, 0 < sumWhere (bkgAt m) evs) :
    sumWhere isSig (equaliseWeights masses evs onorm)
        = onorm.getD (sumWhere isSig (perMassStage masses evs))
    ∧ sumWhere isBkg (equaliseWeights masses evs onorm)
        = onorm.getD (sumWhere isSig (perMassStage masses evs))
    ∧ (onorm = none →
        (equaliseWeights masses evs onorm).filter isSig
          = (perMassStage masses evs).filter isSig) := by
  obtain ⟨m0, hm0⟩ := List.exists_mem_of_ne_nil masses hne
  have hlen : (0 : ℚ) < (masses.length : ℚ) := by
    exact_mod_cast List.length_pos.mpr hne
  have havg : 0 < avgSigSumw masses evs := by
    unfold avgSigSumw
    apply div_pos ?_ hlen
    calc (0 : ℚ) < sumWhere (sigAt m0) evs := hsig m0 hm0
      _ ≤ sumWhere isSig evs :=
        sumWhere_mono _ _ evs (sigAt_implies_isSig m0) hw
  have hsums := perMassStage_sums masses evs hnd
    (fun m hm => ne_of_gt (hsig m hm)) (fun m hm => ne_of_gt (hbkg m hm))
  have hw' : ∀ e ∈ perMassStage masses evs, 0 ≤ e.weight :=
    foldl_eqStep_nonneg _ masses evs (le_of_lt havg) hw
  have hS : 0 < sumWhere isSig (perMassStage masses evs) := by
    have h1 := (hsums m0 hm0).1
    have h2 : sumWhere (sigAt m0) (perMassStage masses evs)
        ≤ sumWhere isSig (perMassStage masses evs) :=
      sumWhere_mono _ _ _ (sigAt_implies_isSig m0) hw'
    linarith
  have hB : 0 < sumWhere isBkg (perMassStage masses evs) := by
    have h1 := (hsums m0 hm0).2
    have h2 : sumWhere (bkgAt m0) (perMassStage masses evs)
        ≤ sumWhere isBkg (perMassStage masses evs) :=
      sumWhere_mono _ _ _ (bkgAt_implies_isBkg m0) hw'
    linarith
  exact globalStage_sums (perMassStage masses evs) onorm
    (ne_of_gt hS) (ne_of_gt hB)

/-- Witness for C1 on a concrete two-mass sample with `norm = 10`. -/
theorem C1_equaliseWeights_global_norm_witness :
    sumWhere isSig (equaliseWeights [(1 : ℚ), 2]
        [⟨[], 1, true, 1⟩, ⟨[], 1, false, 1⟩, ⟨[], 2, true, 3⟩, ⟨[], 2, false, 1⟩]
        (some 10)) = 10
    ∧ sumWhere isBkg (equaliseWeights [(1 : ℚ), 2]
        [⟨[], 1, true, 1⟩, ⟨[], 1, false, 1⟩, ⟨[], 2, true, 3⟩, ⟨[], 2, false, 1⟩]
        (some 10)) = 10
    ∧ (some (10 : ℚ) = none →
        (equaliseWeights [(1 : ℚ), 2]
          [⟨[], 1, true, 1⟩, ⟨[], 1, false, 1⟩, ⟨[], 2, true, 3⟩, ⟨[], 2, false, 1⟩]
          (some 10)).filter isSig
        = (perMassStage [(1 : ℚ), 2]
          [⟨[], 1, true, 1⟩, ⟨[], 1, false, 1⟩, ⟨[], 2, true, 3⟩, ⟨[], 2, false, 1⟩]).filter isSig) :=
  C1_equaliseWeights_global_norm [(1 : ℚ), 2]
    [⟨[], 1, true, 1⟩, ⟨[], 1, false, 1⟩, ⟨[], 2, true, 3⟩, ⟨[], 2, false, 1⟩]
    (some 10) (by decide) (by decide) (by decide)
    (by simp [sumWhere, sigAt]) (by simp [sumWhere, bkgAt])

theorem length_eqStep (avg m : ℚ) (evs : List Ev) :
    (eqStep avg evs m).length = evs.length := by
  unfold eqStep
  rw [length_scaleWhere, length_scaleWhere]

theorem length_foldl_eqStep (avg : ℚ) :
    ∀ (ms : List ℚ) (evs : List Ev),
      (ms.foldl (eqStep avg) evs).length = evs.length := by
  intro ms
  induction ms with
  | nil => intro evs; rfl
  | cons m0 rest ih =>
    intro evs
    rw [List.foldl_cons, ih, length_eqStep]

/-- C7 counterexample: a configuration where mass point 2 has no
events at all, so its per-mass scale factor is a division by zero.
The source does not abort: NumPy float division by zero yields an
infinity without raising, the resulting factor multiplies an empty
selection, and `equaliseWeights` returns a perfectly ordinary weight
vector — here computed in full — while the spec-side abort semantics
would have produced a fatal error. -/
theorem C7_no_abort_counterexample :
    equaliseWeights [(1 : ℚ), 2]
        [⟨[], 1, true, 1⟩, ⟨[], 1, false, 1⟩] (some 7)
      = [⟨[], 1, true, 7⟩, ⟨[], 1, false, 7⟩]
    ∧ equaliseWeightsSpecAbort [(1 : ℚ), 2]
        [⟨[], 1, true, 1⟩, ⟨[], 1, false, 1⟩] (some 7)
      = Except.error "division by zero in weight equalisation" := by
  constructor
  · norm_num [equaliseWeights, perMassStage, globalStage, eqStep, avgSigSumw,
      sumWhere, scaleWhere, sigAt, bkgAt, isSig, isBkg, List.foldl]
  · norm_num [equaliseWeightsSpecAbort, sumWhere, sigAt, bkgAt]

/-- C7 (amended): a missing (class, mass) subgroup is not a fatal
error in the source — the zero-sum denominator produces a non-finite
scale factor without raising, and `equaliseWeights` always returns
normally, with exactly one weight per input event. -/
theorem C7_equaliseWeights_total (masses : List ℚ) (evs : List Ev)
    (onorm : Option ℚ) :
    (equaliseWeights masses evs onorm).length = evs.length := by
  unfold equaliseWeights globalStage
  rw [length_scaleWhere, length_scaleWhere]
  exact length_foldl_eqStep _ masses evs

/-! ### Background inflation -/

theorem foldl_snoc_map {α β : Type} (f : α → β) :
    ∀ (ms : List α) (acc : List β),
      ms.foldl (fun a m => a ++ [f m]) acc = acc ++ ms.map f := by
  intro ms
  induction ms with
  | nil => intro acc; simp
  | cons m rest ih =>
    intro acc
    rw [List.foldl_cons, ih, List.map_cons]
    simp

theorem inflate_eq_blocks (masses : List ℚ) (evs : List Ev) :
    inflateBkgWithMasses masses evs
      = evs.filter isSig
        ++ (masses.map (fun m => (evs.filter isBkg).map (setMass m))).flatten := by
  simp only [inflateBkgWithMasses]
  rw [foldl_snoc_map]
  simp

theorem filter_flatten_eq {α : Type} (p : α → Bool) :
    ∀ L : List (List α), L.flatten.filter p = (L.map (List.filter p)).flatten := by
  intro L
  induction L with
  | nil => rfl
  | cons l rest ih =>
    simp [List.filter_append, ih]

theorem isSig_setMass (m : ℚ) (e : Ev) : isSig (setMass m e) = isSig e := rfl

theorem bkgAt_setMass_self (m : ℚ) (e : Ev) :
    bkgAt m (setMass m e) = !e.label := by
  simp [bkgAt, setMass]

theorem bkgAt_setMass_other (m m' : ℚ) (h : m' ≠ m) (e : Ev) :
    bkgAt m (setMass m' e) = false := by
  simp [bkgAt, setMass, h]

theorem block_filter_isSig (m : ℚ) (evs : List Ev) :
    ((evs.filter isBkg).map (setMass m)).filter isSig = [] := by
  rw [List.filter_eq_nil_iff]
  intro a ha
  rcases List.mem_map.mp ha with ⟨x, hx, rfl⟩
  have hb := List.of_mem_filter hx
  simp only [isBkg, Bool.not_eq_true'] at hb
  simp [isSig, setMass, hb]

theorem block_filter_isBkg (m : ℚ) (evs : List Ev) :
    ((evs.filter isBkg).map (setMass m)).filter isBkg
      = (evs.filter isBkg).map (setMass m) := by
  rw [List.filter_eq_self]
  intro a ha
  rcases List.mem_map.mp ha with ⟨x, hx, rfl⟩
  have hb := List.of_mem_filter hx
  simp only [isBkg, Bool.not_eq_true'] at hb
  simp [setMass, isBkg, hb]

theorem block_filter_bkgAt_self (m : ℚ) (evs : List Ev) :
    ((evs.filter isBkg).map (setMass m)).filter (bkgAt m)
      = (evs.filter isBkg).map (setMass m) := by
  rw [List.filter_eq_self]
  intro a ha
  rcases List.mem_map.mp ha with ⟨x, hx, rfl⟩
  have hb := List.of_mem_filter hx
  simp only [isBkg, Bool.not_eq_true'] at hb
  simp [bkgAt_setMass_self, hb]

theorem block_filter_bkgAt_other (m m' : ℚ) (h : m' ≠ m) (evs : List Ev) :
    ((evs.filter isBkg).map (setMass m')).filter (bkgAt m) = [] := by
  rw [List.filter_eq_nil_iff]
  intro a ha
  rcases List.mem_map.mp ha with ⟨x, hx, rfl⟩
  simp [bkgAt_setMass_other m m' h]

theorem sig_filter_isBkg (evs : List Ev) :
    (evs.filter isSig).filter isBkg = [] := by
  rw [List.filter_eq_nil_iff]
  intro a ha
  have hs := List.of_mem_filter ha
  simp only [isSig] at hs
  simp [isBkg, hs]

theorem sig_filter_bkgAt (m : ℚ) (evs : List Ev) :
    (evs.filter isSig).filter (bkgAt m) = [] := by
  rw [List.filter_eq_nil_iff]
  intro a ha
  have hs := List.of_mem_filter ha
  simp only [isSig] at hs
  simp [bkgAt, hs]

theorem blocks_filter_isBkg_length (evs : List Ev) :
    ∀ ms : List ℚ,
      (((ms.map (fun m => (evs.filter isBkg).map (setMass m))).flatten.filter
          isBkg)).length
        = (evs.filter isBkg).length * ms.length := by
  intro ms
  induction ms with
  | nil => simp
  | cons m rest ih =>
    simp only [List.map_cons, List.flatten_cons, List.filter_append,
      List.length_append, block_filter_isBkg, List.length_map, ih,
      List.length_cons]
    ring

theorem blocks_filter_bkgAt_zero (evs : List Ev) (m : ℚ) :
    ∀ ms : List ℚ, m ∉ ms →
      ((ms.map (fun m' => (evs.filter isBkg).map (setMass m'))).flatten.filter
          (bkgAt m)) = [] := by
  intro ms
  induction ms with
  | nil => intro _; rfl
  | cons m0 rest ih =>
    intro hm
    have h0 : m0 ≠ m := fun h => hm (h ▸ List.mem_cons_self m0 rest)
    have hrest : m ∉ rest := fun h => hm (List.mem_cons_of_mem m0 h)
    simp only [List.map_cons, List.flatten_cons, List.filter_append,
      block_filter_bkgAt_other m m0 h0, List.nil_append, ih hrest]

theorem blocks_filter_bkgAt_length (evs : List Ev) (m : ℚ) :
    ∀ ms : List ℚ, ms.Nodup → m ∈ ms →
      (((ms.map (fun m' => (evs.filter isBkg).map (setMass m'))).flatten.filter
          (bkgAt m))).length
        = (evs.filter isBkg).length := by
  intro ms
  induction ms with
  | nil => intro _ hm; exact absurd hm (List.not_mem_nil m)
  | cons m0 rest ih =>
    intro hnd hm
    have hm0rest : m0 ∉ rest := (List.nodup_cons.mp hnd).1
    rcases List.mem_cons.mp hm with heq | hmem
    · subst heq
      simp only [List.map_cons, List.flatten_cons, List.filter_append,
        List.length_append, block_filter_bkgAt_self,
        blocks_filter_bkgAt_zero evs m rest hm0rest, List.length_map,
        List.length_nil, Nat.add_zero]
    · have h0 : m0 ≠ m := fun h => hm0rest (h ▸ hmem)
      simp only [List.map_cons, List.flatten_cons, List.filter_append,
        block_filter_bkgAt_other m m0 h0, List.nil_append]
      exact ih (List.nodup_cons.mp hnd).2 hmem

/-- C2: `inflateBkgWithMasses` keeps the signal count, multiplies the
background count by the number of configured mass points, gives every
configured mass point exactly the original background count of
background rows carrying that mass, and orders the output as all
signal rows first followed by one background block per mass point in
configuration order. -/
theorem C2_inflateBkgWithMasses_spec (masses : List ℚ) (evs : List Ev)
    (hnd : masses.Nodup) :
    ((inflateBkgWithMasses masses evs).filter isSig).length
        = (evs.filter isSig).length
    ∧ ((inflateBkgWithMasses masses evs).filter isBkg).length
        = (evs.filter isBkg).length * masses.length
    ∧ (∀ m ∈ masses,
        ((inflateBkgWithMasses masses evs).filter (bkgAt m)).length
          = (evs.filter isBkg).length)
    ∧ inflateBkgWithMasses masses evs
        = evs.filter isSig
          ++ (masses.map (fun m => (evs.filter isBkg).map (setMass m))).flatten := by
  have hform := inflate_eq_blocks masses evs
  refine ⟨?_, ?_, ?_, hform⟩
  · rw [hform, List.filter_append, List.length_append, List.filter_filter]
    have h1 : ∀ a ∈ evs, (isSig a && isSig a) = isSig a := by
      intro a _; cases isSig a <;> rfl
    rw [List.filter_congr h1, filter_flatten_eq]
    have h2 : masses.map
        ((List.filter isSig) ∘ (fun m => (evs.filter isBkg).map (setMass m)))
        = masses.map (fun _ => ([] : List Ev)) := by
      apply List.map_congr_left
      intro m _
      exact block_filter_isSig m evs
    rw [List.map_map, h2]
    simp
  · rw [hform, List.filter_append, List.length_append, sig_filter_isBkg,
      filter_flatten_eq, List.map_map]
    have h2 : masses.map
        ((List.filter isBkg) ∘ (fun m => (evs.filter isBkg).map (setMass m)))
        = masses.map (fun m => (evs.filter isBkg).map (setMass m)) := by
      apply List.map_congr_left
      intro m _
      exact block_filter_isBkg m evs
    rw [h2]
    have := blocks_filter_isBkg_length evs masses
    rw [filter_flatten_eq, List.map_map, h2] at this
    simpa using this
  · intro m hm
    rw [hform, List.filter_append, List.length_append, sig_filter_bkgAt,
      blocks_filter_bkgAt_length evs m masses hnd hm]
    simp

/-- Witness for C2: the per-mass background count on a concrete
sample with two mass points. -/
theorem C2_inflateBkgWithMasses_spec_witness :
    ((inflateBkgWithMasses [(1 : ℚ), 2]
        [⟨[], 3, true, 1⟩, ⟨[], 3, false, 1⟩, ⟨[], 5, false, 2⟩]).filter
      (bkgAt 2)).length
      = (([⟨[], 3, true, 1⟩, ⟨[], 3, false, 1⟩,
          ⟨[], 5, false, 2⟩] : List Ev).filter isBkg).length :=
  (C2_inflateBkgWithMasses_spec [(1 : ℚ), 2]
    [⟨[], 3, true, 1⟩, ⟨[], 3, false, 1⟩, ⟨[], 5, false, 2⟩]
    (by decide)).2.2.1 2 (by decide)

/-! ### Batching -/

theorem numBatches_zero (b : ℕ) : numBatches 0 b = 0 := by
  unfold numBatches
  rcases b with _ | k
  · rfl
  · exact Nat.div_eq_of_lt (by omega)

theorem numBatches_succ (n b : ℕ) (hn : 0 < n) (hb : 0 < b) :
    numBatches n b = numBatches (n - b) b + 1 := by
  unfold numBatches
  rcases le_or_lt b n with h | h
  · have e1 : n + b - 1 = (n - 1) + b := by omega
    have e2 : n - b + b - 1 = n - 1 := by omega
    rw [e1, e2, Nat.add_div_right _ hb]
  · have e1 : n - b = 0 := by omega
    have h1 : (n + b - 1) / b = 1 := by
      apply Nat.div_eq_of_lt_le
      · omega
      · omega
    have h2 : (0 + b - 1) / b = 0 := Nat.div_eq_of_lt (by omega)
    rw [e1, h1, h2]

theorem sliceB_zero {α : Type} (xs : List α) (b : ℕ) :
    sliceB xs 0 b = xs.take b := by
  simp [sliceB]

theorem sliceB_succ {α : Type} (xs : List α) (i b : ℕ) :
    sliceB xs (i + 1) b = sliceB (xs.drop b) i b := by
  unfold sliceB
  rw [List.drop_drop]
  congr 2
  ring

theorem flatten_slices {α : Type} (b : ℕ) (hb : 0 < b) (xs : List α) :
    ((List.range (numBatches xs.length b)).map
      (fun i => sliceB xs i b)).flatten = xs := by
  suffices h : ∀ (n : ℕ) (xs : List α), xs.length ≤ n →
      ((List.range (numBatches xs.length b)).map
        (fun i => sliceB xs i b)).flatten = xs from h xs.length xs le_rfl
  intro n
  induction n with
  | zero =>
    intro xs h
    have h0 : xs = [] := List.length_eq_zero.mp (Nat.le_zero.mp h)
    subst h0
    simp [numBatches_zero]
  | succ n ih =>
    intro xs h
    by_cases h0 : xs = []
    · subst h0
      simp [numBatches_zero]
    · have hlen : 0 < xs.length := List.length_pos.mpr h0
      rw [numBatches_succ _ _ hlen hb, List.range_succ_eq_map, List.map_cons,
        List.map_map, List.flatten_cons, sliceB_zero]
      have hcongr : (List.range (numBatches (xs.length - b) b)).map
            ((fun i => sliceB xs i b) ∘ Nat.succ)
          = (List.range (numBatches (xs.length - b) b)).map
            (fun i => sliceB (xs.drop b) i b) := by
        apply List.map_congr_left
        intro i _
        exact sliceB_succ xs i b
      have hdl : (xs.drop b).length = xs.length - b := List.length_drop b xs
      rw [hcongr, ← hdl, ih (xs.drop b) (by rw [hdl]; omega),
        List.take_append_drop]

theorem range_map_getD {α : Type} (d : α) (xs : List α) :
    (List.range xs.length).map (fun i => xs.getD i d) = xs := by
  induction xs with
  | nil => rfl
  | cons x t ih =>
    rw [List.length_cons, List.range_succ_eq_map, List.map_cons, List.map_map]
    have hcongr : (List.range t.length).map
          ((fun i => (x :: t).getD i d) ∘ Nat.succ)
        = (List.range t.length).map (fun i => t.getD i d) := by
      apply List.map_congr_left
      intro i _
      rfl
    rw [hcongr, ih]
    rfl

theorem getD_zip_triple (X : List (List ℚ)) (y w : List ℚ) (i : ℕ)
    (hy : y.length = X.length) (hw : w.length = X.length)
    (hi : i < X.length) :
    (X.zip (y.zip w)).getD i ([], 0, 0)
      = (X.getD i [], y.getD i 0, w.getD i 0) := by
  have h1 : i < (y.zip w).length := by rw [List.length_zip]; omega
  have h2 : i < (X.zip (y.zip w)).length := by
    rw [List.length_zip, List.length_zip]; omega
  rw [List.getD_eq_getElem _ _ h2, List.getElem_zip, List.getElem_zip,
    List.getD_eq_getElem _ _ hi, List.getD_eq_getElem _ _ (by omega : i < y.length),
    List.getD_eq_getElem _ _ (by omega : i < w.length)]

theorem npTake_perm {α : Type} (d : α) (xs : List α) (ids : List ℕ)
    (h : ids.Perm (List.range xs.length)) : (npTake d ids xs).Perm xs := by
  unfold npTake
  have hmap := h.map (fun i => xs.getD i d)
  rwa [range_map_getD] at hmap

/-- C3: with `shuffle=False`, `getBatches` yields ⌈N/B⌉ batches whose
in-order concatenation reconstructs X, y and w exactly; with
`shuffle=True` (any permutation `ids` of the indices), one shared
permutation is applied to all three arrays, so the multiset of
aligned (X row, y value, w value) triples over all yielded batches
equals the input multiset. -/
theorem C3_getBatches_partition (X : List (List ℚ)) (y w : List ℚ) (b : ℕ)
    (hb : 0 < b) (hX : X ≠ [])
    (hy : y.length = X.length) (hw : w.length = X.length) :
    (getBatches X y w b none).length = (X.length + b - 1) / b
    ∧ ((getBatches X y w b none).map (fun t => t.1)).flatten = X
    ∧ ((getBatches X y w b none).map (fun t => t.2.1)).flatten = y
    ∧ ((getBatches X y w b none).map (fun t => t.2.2)).flatten = w
    ∧ ∀ ids : List ℕ, ids.Perm (List.range X.length) →
        ((((getBatches X y w b (some ids)).map (fun t => t.1)).flatten).zip
          ((((getBatches X y w b (some ids)).map (fun t => t.2.1)).flatten).zip
            (((getBatches X y w b (some ids)).map (fun t => t.2.2)).flatten))).Perm
          (X.zip (y.zip w)) := by
  refine ⟨?_, ?_, ?_, ?_, ?_⟩
  · simp [getBatches, numBatches]
  · have e : (getBatches X y w b none).map (fun t => t.1)
        = (List.range (numBatches X.length b)).map (fun i => sliceB X i b) := by
      simp only [getBatches, List.map_map]
      rfl
    rw [e, flatten_slices b hb]
  · have e : (getBatches X y w b none).map (fun t => t.2.1)
        = (List.range (numBatches X.length b)).map (fun i => sliceB y i b) := by
      simp only [getBatches, List.map_map]
      rfl
    rw [e, ← hy, flatten_slices b hb]
  · have e : (getBatches X y w b none).map (fun t => t.2.2)
        = (List.range (numBatches X.length b)).map (fun i => sliceB w i b) := by
      simp only [getBatches, List.map_map]
      rfl
    rw [e, ← hw, flatten_slices b hb]
  · intro ids hperm
    have hidslen : ids.length = X.length := by
      have := hperm.length_eq
      simpa using this
    have hXs : (npTake ([] : List ℚ) ids X).length = X.length := by
      simp [npTake, hidslen]
    have hys : (npTake (0 : ℚ) ids y).length = X.length := by
      simp [npTake, hidslen]
    have hws : (npTake (0 : ℚ) ids w).length = X.length := by
      simp [npTake, hidslen]
    have eX : (getBatches X y w b (some ids)).map (fun t => t.1)
        = (List.range (numBatches X.length b)).map
            (fun i => sliceB (npTake [] ids X) i b) := by
      simp only [getBatches, List.map_map]
      rfl
    have eY : (getBatches X y w b (some ids)).map (fun t => t.2.1)
        = (List.range (numBatches X.length b)).map
            (fun i => sliceB (npTake 0 ids y) i b) := by
      simp only [getBatches, List.map_map]
      rfl
    have eW : (getBatches X y w b (some ids)).map (fun t => t.2.2)
        = (List.range (numBatches X.length b)).map
            (fun i => sliceB (npTake 0 ids w) i b) := by
      simp only [getBatches, List.map_map]
      rfl
    have fX : (((getBatches X y w b (some ids)).map (fun t => t.1)).flatten)
        = npTake [] ids X := by
      rw [eX, ← hXs, flatten_slices b hb]
    have fY : (((getBatches X y w b (some ids)).map (fun t => t.2.1)).flatten)
        = npTake 0 ids y := by
      rw [eY, ← hys, flatten_slices b hb]
    have fW : (((getBatches X y w b (some ids)).map (fun t => t.2.2)).flatten)
        = npTake 0 ids w := by
      rw [eW, ← hws, flatten_slices b hb]
    rw [fX, fY, fW]
    unfold npTake
    rw [List.zip_map', List.zip_map']
    have hcongr : ids.map (fun i => (X.getD i [], y.getD i 0, w.getD i 0))
        = ids.map (fun i => (X.zip (y.zip w)).getD i ([], 0, 0)) := by
      apply List.map_congr_left
      intro i hi
      have hin : i < X.length := by
        have hmem : i ∈ List.range X.length := hperm.mem_iff.mp hi
        simpa using hmem
      exact (getD_zip_triple X y w i hy hw hin).symm
    rw [hcongr]
    have hlenZ : (X.zip (y.zip w)).length = X.length := by
      rw [List.length_zip, List.length_zip]
      omega
    have hfin : (List.range X.length).map
        (fun i => (X.zip (y.zip w)).getD i ([], 0, 0)) = X.zip (y.zip w) := by
      rw [← hlenZ]
      exact range_map_getD _ _
    have hp := hperm.map (fun i => (X.zip (y.zip w)).getD i ([], 0, 0))
    rwa [hfin] at hp

/-- Witness for C3 at N = 3, B = 2, with the shuffle part exercised
by the reversal permutation. -/
theorem C3_getBatches_partition_witness :
    ((getBatches [[(1 : ℚ)], [2], [3]] [0, 1, 0] [5, 6, 7] 2 none).map
        (fun t => t.2.1)).flatten = [0, 1, 0]
    ∧ ((((getBatches [[(1 : ℚ)], [2], [3]] [0, 1, 0] [5, 6, 7] 2
            (some [2, 1, 0])).map (fun t => t.1)).flatten).zip
        ((((getBatches [[(1 : ℚ)], [2], [3]] [0, 1, 0] [5, 6, 7] 2
            (some [2, 1, 0])).map (fun t => t.2.1)).flatten).zip
          (((getBatches [[(1 : ℚ)], [2], [3]] [0, 1, 0] [5, 6, 7] 2
            (some [2, 1, 0])).map (fun t => t.2.2)).flatten))).Perm
        ([[(1 : ℚ)], [2], [3]].zip (([0, 1, 0] : List ℚ).zip [5, 6, 7])) :=
  ⟨(C3_getBatches_partition [[(1 : ℚ)], [2], [3]] [0, 1, 0] [5, 6, 7] 2
      (by decide) (by decide) (by decide) (by decide)).2.2.1,
   (C3_getBatches_partition [[(1 : ℚ)], [2], [3]] [0, 1, 0] [5, 6, 7] 2
      (by decide) (by decide) (by decide) (by decide)).2.2.2.2 [2, 1, 0]
      (by decide)⟩

/-! ### Prediction -/

/-- C10: for a non-empty input and positive batch size, `predict`
returns exactly one prediction per input row, produced batch by batch
in input order (the result is precisely the per-row model function
mapped over the rows); for an empty input the final `np.concatenate`
receives an empty list of arrays and fails instead of returning an
empty result. -/
theorem C10_predict_per_row (f : List ℚ → ℚ) (X : List (List ℚ)) (b : ℕ)
    (hb : 0 < b) :
    (X ≠ [] → predict f X b = Except.ok (X.map f))
    ∧ (X = [] →
        predict f X b
          = Except.error "need at least one array to concatenate") := by
  constructor
  · intro hX
    have hlen : 0 < X.length := List.length_pos.mpr hX
    have hnb : 0 < numBatches X.length b := by
      rw [numBatches_succ _ _ hlen hb]
      omega
    have hne : ¬ ((List.range (numBatches X.length b)).map
        (fun i => (sliceB X i b).map f)).isEmpty = true := by
      simp only [List.isEmpty_iff, List.map_eq_nil_iff, List.range_eq_nil]
      omega
    simp only [predict]
    rw [if_neg hne]
    have e1 : (List.range (numBatches X.length b)).map
          (fun i => (sliceB X i b).map f)
        = ((List.range (numBatches X.length b)).map
            (fun i => sliceB X i b)).map (List.map f) := by
      rw [List.map_map]
      rfl
    rw [e1, ← List.map_flatten, flatten_slices b hb]
  · intro hX
    subst hX
    simp [predict, numBatches_zero]

/-- Witness for C10 with a three-row input, batch size two, and the
row-sum as the model function. -/
theorem C10_predict_per_row_witness :
    predict List.sum [[(1 : ℚ)], [2], [3]] 2
      = Except.ok ([[(1 : ℚ)], [2], [3]].map List.sum) :=
  (C10_predict_per_row List.sum [[(1 : ℚ)], [2], [3]] 2 (by decide)).1
    (by decide)

/-! ### Minima, maxima and first indices over loss arrays -/

theorem foldl_min_le_init (l : List ℚ) : ∀ a : ℚ, l.foldl min a ≤ a := by
  induction l with
  | nil => intro a; exact le_rfl
  | cons x t ih =>
    intro a
    calc t.foldl min (min a x) ≤ min a x := ih (min a x)
      _ ≤ a := min_le_left a x

theorem foldl_min_le_mem (l : List ℚ) :
    ∀ (a x : ℚ), x ∈ l → l.foldl min a ≤ x := by
  induction l with
  | nil => intro a x hx; exact absurd hx (List.not_mem_nil x)
  | cons y t ih =>
    intro a x hx
    rcases List.mem_cons.mp hx with rfl | hmem
    · calc t.foldl min (min a x) ≤ min a x := foldl_min_le_init t _
        _ ≤ x := min_le_right a x
    · exact ih (min a y) x hmem

theorem foldl_min_mem_or (l : List ℚ) :
    ∀ a : ℚ, l.foldl min a = a ∨ l.foldl min a ∈ l := by
  induction l with
  | nil => intro a; exact Or.inl rfl
  | cons x t ih =>
    intro a
    rcases ih (min a x) with h | h
    · rcases min_choice a x with e | e
      · rw [List.foldl_cons, h, e]
        exact Or.inl rfl
      · rw [List.foldl_cons, h, e]
        exact Or.inr (List.mem_cons_self x t)
    · exact Or.inr (List.mem_cons_of_mem x h)

theorem npMin_le (l : List ℚ) (x : ℚ) (hx : x ∈ l) : npMin l ≤ x := by
  cases l with
  | nil => exact absurd hx (List.not_mem_nil x)
  | cons y t =>
    rcases List.mem_cons.mp hx with rfl | hmem
    · exact foldl_min_le_init t x
    · exact foldl_min_le_mem t y x hmem

theorem npMin_mem (l : List ℚ) (h : l ≠ []) : npMin l ∈ l := by
  cases l with
  | nil => exact absurd rfl h
  | cons y t =>
    rcases foldl_min_mem_or t y with e | e
    · rw [npMin, e]
      exact List.mem_cons_self y t
    · exact List.mem_cons_of_mem y e

theorem npMin_eq_of (l : List ℚ) (v : ℚ) (hv : v ∈ l)
    (hle : ∀ x ∈ l, v ≤ x) : npMin l = v :=
  le_antisymm (npMin_le l v hv)
    (hle _ (npMin_mem l (List.ne_nil_of_mem hv)))

theorem foldl_max_const (l : List ℚ) :
    ∀ a : ℚ, (∀ x ∈ l, x = a) → l.foldl max a = a := by
  induction l with
  | nil => intro a _; rfl
  | cons x t ih =>
    intro a h
    have hx : x = a := h x (List.mem_cons_self x t)
    rw [List.foldl_cons, hx, max_self]
    exact ih a (fun z hz => h z (List.mem_cons_of_mem x hz))

theorem npMax_const (l : List ℚ) (v : ℚ) (hne : l ≠ [])
    (h : ∀ x ∈ l, x = v) : npMax l = v := by
  cases l with
  | nil => exact absurd rfl hne
  | cons x t =>
    have hx : x = v := h x (List.mem_cons_self x t)
    rw [npMax, hx]
    exact foldl_max_const t v (fun z hz => h z (List.mem_cons_of_mem x hz))

theorem npMin_const (l : List ℚ) (v : ℚ) (hne : l ≠ [])
    (h : ∀ x ∈ l, x = v) : npMin l = v := by
  have hv : v ∈ l := by
    cases l with
    | nil => exact absurd rfl hne
    | cons x t =>
      have hx := h x (List.mem_cons_self x t)
      rw [← hx]
      exact List.mem_cons_self x t
  exact npMin_eq_of l v hv (fun x hx => le_of_eq (h x hx).symm)

theorem getD_mem (l : List ℚ) (a : ℕ) (h : a < l.length) :
    l.getD a 0 ∈ l := by
  rw [List.getD_eq_getElem _ _ h]
  exact List.getElem_mem h

theorem mem_getD (l : List ℚ) (x : ℚ) (hx : x ∈ l) :
    ∃ a, a < l.length ∧ x = l.getD a 0 := by
  obtain ⟨a, ha, he⟩ := List.mem_iff_getElem.mp hx
  exact ⟨a, ha, by rw [List.getD_eq_getElem _ _ ha, he]⟩

theorem mem_drop_getD (l : List ℚ) (k : ℕ) (x : ℚ) (hx : x ∈ l.drop k) :
    ∃ a, k ≤ a ∧ a < l.length ∧ x = l.getD a 0 := by
  obtain ⟨i, hi, he⟩ := List.mem_iff_getElem.mp hx
  have hlen : i < l.length - k := by
    have := hi
    rwa [List.length_drop] at this
  refine ⟨k + i, by omega, by omega, ?_⟩
  rw [List.getD_eq_getElem _ _ (by omega : k + i < l.length), ← he,
    List.getElem_drop]

theorem mem_take_getD (l : List ℚ) (k : ℕ) (x : ℚ) (hx : x ∈ l.take k) :
    ∃ a, a < k ∧ a < l.length ∧ x = l.getD a 0 := by
  obtain ⟨i, hi, he⟩ := List.mem_iff_getElem.mp hx
  have hlen : i < min k l.length := by
    have := hi
    rwa [List.length_take] at this
  refine ⟨i, by omega, by omega, ?_⟩
  rw [List.getD_eq_getElem _ _ (by omega : i < l.length), ← he,
    List.getElem_take]

theorem getD_mem_take (l : List ℚ) (k a : ℕ) (h1 : a < k)
    (h2 : a < l.length) : l.getD a 0 ∈ l.take k := by
  have hlen : a < (l.take k).length := by
    rw [List.length_take]
    omega
  have he : (l.take k).getD a 0 = l.getD a 0 := by
    rw [List.getD_eq_getElem _ _ hlen, List.getD_eq_getElem _ _ h2,
      List.getElem_take]
  rw [← he]
  exact getD_mem _ a hlen

theorem npMin_eq_getD (l : List ℚ) (K : ℕ) (hK : K < l.length)
    (hlb : ∀ a, a < l.length → l.getD K 0 ≤ l.getD a 0) :
    npMin l = l.getD K 0 := by
  apply npMin_eq_of _ _ (getD_mem l K hK)
  intro x hx
  obtain ⟨a, ha, rfl⟩ := mem_getD l x hx
  exact hlb a ha

theorem npMin_take_eq_getD (l : List ℚ) (K : ℕ) (hK : K < l.length)
    (hlb : ∀ a, a < l.length → l.getD K 0 ≤ l.getD a 0) :
    npMin (l.take (K + 1)) = l.getD K 0 := by
  apply npMin_eq_of _ _ (getD_mem_take l (K + 1) K (by omega) hK)
  intro x hx
  obtain ⟨a, _, ha2, rfl⟩ := mem_take_getD l (K + 1) x hx
  exact hlb a ha2

theorem decr_lt (l : List ℚ) (K : ℕ)
    (hdec : ∀ a, a < K → l.getD (a + 1) 0 < l.getD a 0) :
    ∀ a, a < K → l.getD K 0 < l.getD a 0 := by
  have key : ∀ d a, a + d = K → 0 < d → l.getD K 0 < l.getD a 0 := by
    intro d
    induction d with
    | zero => intro a _ h0; omega
    | succ d ih =>
      intro a had _
      rcases Nat.eq_zero_or_pos d with rfl | hd
      · have haK : a < K := by omega
        have h1 := hdec a haK
        have heq : a + 1 = K := by omega
        rwa [heq] at h1
      · have haK : a < K := by omega
        exact lt_trans (ih (a + 1) (by omega) hd) (hdec a haK)
  intro a ha
  exact key (K - a) a (by omega) (by omega)

theorem decr_flat_lb (l : List ℚ) (K : ℕ) (hK : K < l.length)
    (hdec : ∀ a, a < K → l.getD (a + 1) 0 < l.getD a 0)
    (hflat : ∀ a, a < l.length → K ≤ a → l.getD a 0 = l.getD K 0) :
    ∀ a, a < l.length → l.getD K 0 ≤ l.getD a 0 := by
  intro a ha
  rcases lt_or_ge a K with h | h
  · exact le_of_lt (decr_lt l K hdec a h)
  · exact le_of_eq (hflat a ha h).symm

theorem firstIdxOf_getD (l : List ℚ) (K : ℕ) (hK : K < l.length)
    (hne : ∀ a, a < K → l.getD a 0 ≠ l.getD K 0) :
    firstIdxOf (l.getD K 0) l = K := by
  induction l generalizing K with
  | nil => simp at hK
  | cons x t ih =>
    cases K with
    | zero => simp [firstIdxOf]
    | succ K =>
      have hx : x ≠ (x :: t).getD (K + 1) 0 := hne 0 (by omega)
      have hKt : K < t.length := by
        have := hK
        rw [List.length_cons] at this
        omega
      show (if x = (x :: t).getD (K + 1) 0 then 0
          else firstIdxOf ((x :: t).getD (K + 1) 0) t + 1) = K + 1
      rw [if_neg hx]
      have he : (x :: t).getD (K + 1) 0 = t.getD K 0 := rfl
      rw [he]
      rw [ih K hKt (fun a ha => hne (a + 1) (by omega))]

/-! ### The scheduler-step policy -/

theorem schedStep_true_elim (last : ℕ) (h : List (List ℚ)) :
    (schedStep last h).1 = true →
      (schedStep last h).2 = h.length
      ∧ 5 < h.length - (firstIdxOf (npMin (h.map List.sum)) (h.map List.sum) + 1)
      ∧ 5 < h.length - last := by
  simp only [schedStep]
  split
  case isTrue hc =>
    intro _
    exact ⟨rfl, hc.1, hc.2⟩
  case isFalse hc =>
    intro hfalse
    exact absurd hfalse (by simp)

theorem schedStep_snd_cases (last : ℕ) (h : List (List ℚ)) :
    (schedStep last h).2 = h.length ∨ (schedStep last h).2 = last := by
  simp only [schedStep]
  split
  case isTrue hc => exact Or.inl rfl
  case isFalse hc => exact Or.inr rfl

theorem runSched_true_length_lb :
    ∀ (hs : List (List (List ℚ))) (last L : ℕ), L ≤ last →
      (∀ h ∈ hs, L ≤ h.length) →
      ∀ p ∈ hs.zip (runSched last hs), p.2 = true → L + 5 < p.1.length := by
  intro hs
  induction hs with
  | nil =>
    intro last L _ _ p hp
    exact absurd hp (by simp [runSched])
  | cons h t ih =>
    intro last L hL hall p hp htrue
    simp only [runSched, List.zip_cons_cons] at hp
    rcases List.mem_cons.mp hp with rfl | hmem
    · have hcond := (schedStep_true_elim last h htrue).2.2
      show L + 5 < h.length
      omega
    · have hh : L ≤ h.length := hall h (List.mem_cons_self h t)
      have hL' : L ≤ (schedStep last h).2 := by
        rcases schedStep_snd_cases last h with e | e
        · rw [e]; exact hh
        · rw [e]; exact hL
      exact ih (schedStep last h).2 L hL'
        (fun x hx => hall x (List.mem_cons_of_mem _ hx)) p hmem htrue

theorem runSched_pairwise (hs : List (List (List ℚ)))
    (hmono : List.Pairwise (fun a b => a.length ≤ b.length) hs) :
    ∀ last, List.Pairwise
      (fun p q => p.2 = true → q.2 = true → p.1.length + 5 < q.1.length)
      (hs.zip (runSched last hs)) := by
  induction hs with
  | nil => intro last; simp [runSched]
  | cons h t ih =>
    intro last
    simp only [runSched, List.zip_cons_cons]
    refine List.Pairwise.cons ?_ ?_
    · intro q hq htrue hqtrue
      have h2 := (schedStep_true_elim last h htrue).1
      have hall : ∀ x ∈ t, h.length ≤ x.length :=
        fun x hx => (List.pairwise_cons.mp hmono).1 x hx
      exact runSched_true_length_lb t (schedStep last h).2 h.length
        (by rw [h2]) hall q hq hqtrue
    · exact ih (List.pairwise_cons.mp hmono).2 (schedStep last h).2

/-- C5: over any sequence of `shouldSchedulerStep` calls on growing
loss histories starting from `last_step_epoch = 0`, the policy never
returns true twice within 5 epochs of each other (any two true
outputs are more than 5 epochs apart); and a call returns true only
if it records the current epoch as the last step, more than 5 epochs
have elapsed since the epoch of the best summed-across-masses loss,
and more than 5 epochs have elapsed since the last recorded step. -/
theorem C5_shouldSchedulerStep_rate_limit (hs : List (List (List ℚ)))
    (hmono : List.Pairwise (fun a b => a.length ≤ b.length) hs) :
    List.Pairwise
      (fun p q => p.2 = true → q.2 = true → p.1.length + 5 < q.1.length)
      (hs.zip (runSched 0 hs))
    ∧ ∀ (last : ℕ) (h : List (List ℚ)), (schedStep last h).1 = true →
        (schedStep last h).2 = h.length
        ∧ 5 < h.length
            - (firstIdxOf (npMin (h.map List.sum)) (h.map List.sum) + 1)
        ∧ 5 < h.length - last :=
  ⟨runSched_pairwise hs hmono 0, fun last h => schedStep_true_elim last h⟩

/-- Witness for C5 on a concrete growing pair of histories. -/
theorem C5_shouldSchedulerStep_rate_limit_witness :
    List.Pairwise
      (fun p q => p.2 = true → q.2 = true → p.1.length + 5 < q.1.length)
      (([[[(1 : ℚ)]], [[(1 : ℚ)], [2]]]).zip
        (runSched 0 [[[(1 : ℚ)]], [[(1 : ℚ)], [2]]])) :=
  (C5_shouldSchedulerStep_rate_limit [[[(1 : ℚ)]], [[(1 : ℚ)], [2]]]
    (by decide)).1

/-- C8: when the weighted AUC computation fails, `getROC` does not
surface the failure: it returns normally with the trapezoidal-rule
integral of the ROC curve in place of the AUC. -/
theorem C8_getROC_trapz_fallback (fpr tpr : List ℚ) (msg : String) :
    getROC fpr tpr (Except.error msg) = (fpr, tpr, trapz tpr fpr) := rfl

/-! ### Early stopping -/

theorem colAt_length (losses : List (List ℚ)) (i : ℕ) :
    (colAt losses i).length = losses.length := by
  simp [colAt]

theorem colAt_getD (losses : List (List ℚ)) (i a : ℕ)
    (ha : a < losses.length) :
    (colAt losses i).getD a 0 = entryAt losses a i := by
  unfold colAt entryAt
  rw [List.getD_eq_getElem _ _ (by simp [ha]), List.getElem_map,
    List.getD_eq_getElem _ _ ha]

theorem slosses_getD (losses : List (List ℚ)) (a : ℕ)
    (ha : a < losses.length) :
    (losses.map List.sum).getD a 0 = (losses.getD a []).sum := by
  rw [List.getD_eq_getElem _ _ (by simp [ha]), List.getElem_map,
    List.getD_eq_getElem _ _ ha]

theorem rows_eq_of_cols (r s : List ℚ) (nM : ℕ) (hr : r.length = nM)
    (hs : s.length = nM) (h : ∀ i, i < nM → r.getD i 0 = s.getD i 0) :
    r = s := by
  apply List.ext_getElem (by omega)
  intro i h1 h2
  have := h i (by omega)
  rwa [List.getD_eq_getElem _ _ h1, List.getD_eq_getElem _ _ h2] at this

theorem sum_le_sum_pointwise :
    ∀ (r s : List ℚ), s.length = r.length →
      (∀ i, i < r.length → s.getD i 0 ≤ r.getD i 0) → s.sum ≤ r.sum := by
  intro r
  induction r with
  | nil =>
    intro s hlen _
    have : s = [] := List.length_eq_zero.mp hlen
    subst this
    exact le_rfl
  | cons x t ih =>
    intro s hlen h
    cases s with
    | nil => simp at hlen
    | cons y u =>
      have h0 : y ≤ x := h 0 (by simp)
      have ht : u.sum ≤ t.sum := by
        apply ih u (by simpa using hlen)
        intro i hi
        exact h (i + 1) (by simpa using Nat.succ_lt_succ hi)
      simp only [List.sum_cons]
      linarith

theorem sum_lt_sum_pointwise (r s : List ℚ) (hlen : s.length = r.length)
    (hpos : 0 < r.length)
    (h : ∀ i, i < r.length → s.getD i 0 < r.getD i 0) : s.sum < r.sum := by
  cases r with
  | nil => simp at hpos
  | cons x t =>
    cases s with
    | nil => simp at hlen
    | cons y u =>
      have h0 : y < x := h 0 (by simp)
      have ht : u.sum ≤ t.sum := by
        apply sum_le_sum_pointwise t u (by simpa using hlen)
        intro i hi
        exact le_of_lt (h (i + 1) (by simpa using Nat.succ_lt_succ hi))
      simp only [List.sum_cons]
      linarith

/-- C4: for a loss history whose per-mass losses are strictly
decreasing up to a common epoch `K` (0-based) and exactly flat from
there on, `shouldEarlyStop` returns false whenever the number of
epochs is below `min_epoch`, and returns true once the history has
been flat for more than `grace_epochs` epochs (its flat-window
variation being zero, in particular under any non-negative `tol`),
provided the epoch count has reached `min_epoch`. -/
theorem C4_shouldEarlyStop_spec (masses : List ℚ) (losses : List (List ℚ))
    (minEpoch grace : ℕ) (tol : ℚ) (K : ℕ)
    (hmne : masses ≠ []) (hg : 0 < grace) (htol : 0 ≤ tol)
    (hrect : ∀ r ∈ losses, r.length = masses.length)
    (hK : K < losses.length)
    (hdec : ∀ i, i < masses.length → ∀ a, a < K →
      entryAt losses (a + 1) i < entryAt losses a i)
    (hflat : ∀ i, i < masses.length → ∀ a, a < losses.length → K ≤ a →
      entryAt losses a i = entryAt losses K i) :
    (losses.length < minEpoch →
      shouldEarlyStop masses losses minEpoch grace tol = false)
    ∧ (minEpoch ≤ losses.length → grace < losses.length - K →
      shouldEarlyStop masses losses minEpoch grace tol = true) := by
  constructor
  · intro hlt
    simp [shouldEarlyStop, hlt]
  · intro hmin hflatlen
    have hnM : 0 < masses.length := List.length_pos.mpr hmne
    have hg0 : grace ≠ 0 := Nat.pos_iff_ne_zero.mp hg
    have hgn : grace < losses.length := by omega
    have hcol_dec : ∀ i, i < masses.length → ∀ a, a < K →
        (colAt losses i).getD (a + 1) 0 < (colAt losses i).getD a 0 := by
      intro i hi a ha
      rw [colAt_getD _ _ _ (by omega), colAt_getD _ _ _ (by omega)]
      exact hdec i hi a ha
    have hcol_flat : ∀ i, i < masses.length → ∀ a, a < losses.length →
        K ≤ a → (colAt losses i).getD a 0 = (colAt losses i).getD K 0 := by
      intro i hi a h1 h2
      rw [colAt_getD _ _ _ h1, colAt_getD _ _ _ hK]
      exact hflat i hi a h1 h2
    have hcol_lb : ∀ i, i < masses.length → ∀ a, a < losses.length →
        (colAt losses i).getD K 0 ≤ (colAt losses i).getD a 0 := by
      intro i hi
      have hlb := decr_flat_lb (colAt losses i) K
        (by rw [colAt_length]; exact hK) (hcol_dec i hi)
        (by
          intro a h1 h2
          exact hcol_flat i hi a (by rwa [colAt_length] at h1) h2)
      intro a ha
      exact hlb a (by rwa [colAt_length])
    have hany1 : ((List.range masses.length).any (fun i =>
        decide (tol < (npMax (npLastSlice (colAt losses i) grace)
          - npMin (npLastSlice (colAt losses i) grace))
          / npMin (colAt losses i)))) = false := by
      rw [List.any_eq_false]
      intro i hi
      have hiM : i < masses.length := List.mem_range.mp hi
      have hclen : (colAt losses i).length = losses.length := colAt_length _ _
      have hw : npLastSlice (colAt losses i) grace
          = (colAt losses i).drop ((colAt losses i).length - grace) := by
        unfold npLastSlice
        rw [if_neg hg0]
      have hwne : (colAt losses i).drop ((colAt losses i).length - grace)
          ≠ [] := by
        apply List.ne_nil_of_length_pos
        rw [List.length_drop, hclen]
        omega
      have hwconst : ∀ x ∈ (colAt losses i).drop
          ((colAt losses i).length - grace),
          x = (colAt losses i).getD K 0 := by
        intro x hx
        obtain ⟨a, ha1, ha2, rfl⟩ := mem_drop_getD _ _ _ hx
        rw [hclen] at ha1
        exact hcol_flat i hiM a (by rwa [hclen] at ha2) (by omega)
      rw [hw, npMax_const _ _ hwne hwconst, npMin_const _ _ hwne hwconst,
        sub_self, zero_div]
      simp only [decide_eq_true_eq]
      exact not_lt.mpr htol
    have hsl : (losses.map List.sum).length = losses.length := by simp
    have hsdec : ∀ a, a < K → (losses.map List.sum).getD (a + 1) 0
        < (losses.map List.sum).getD a 0 := by
      intro a ha
      rw [slosses_getD _ _ (by omega), slosses_getD _ _ (by omega)]
      apply sum_lt_sum_pointwise
      · rw [List.getD_eq_getElem _ _ (show a + 1 < losses.length by omega),
          List.getD_eq_getElem _ _ (show a < losses.length by omega),
          hrect _ (List.getElem_mem _), hrect _ (List.getElem_mem _)]
      · rw [List.getD_eq_getElem _ _ (show a < losses.length by omega),
          hrect _ (List.getElem_mem _)]
        exact hnM
      · intro j hj
        have hjM : j < masses.length := by
          rw [List.getD_eq_getElem _ _ (show a < losses.length by omega),
            hrect _ (List.getElem_mem _)] at hj
          exact hj
        exact hdec j hjM a ha
    have hsflat : ∀ a, a < losses.length → K ≤ a →
        (losses.map List.sum).getD a 0 = (losses.map List.sum).getD K 0 := by
      intro a h1 h2
      rw [slosses_getD _ _ h1, slosses_getD _ _ hK]
      congr 1
      apply rows_eq_of_cols _ _ masses.length
      · rw [List.getD_eq_getElem _ _ h1]
        exact hrect _ (List.getElem_mem _)
      · rw [List.getD_eq_getElem _ _ hK]
        exact hrect _ (List.getElem_mem _)
      · intro i hi
        exact hflat i hi a h1 h2
    have hslb := decr_flat_lb (losses.map List.sum) K
      (by rw [hsl]; exact hK) hsdec
      (by
        intro a h1 h2
        exact hsflat a (by rwa [hsl] at h1) h2)
    have hminS : npMin (losses.map List.sum)
        = (losses.map List.sum).getD K 0 :=
      npMin_eq_getD _ K (by rw [hsl]; exact hK) hslb
    have hidx : firstIdxOf (npMin (losses.map List.sum))
        (losses.map List.sum) = K := by
      rw [hminS]
      apply firstIdxOf_getD _ K (by rw [hsl]; exact hK)
      intro a ha
      exact ne_of_gt (decr_lt _ K hsdec a ha)
    simp only [shouldEarlyStop]
    rw [if_neg (not_lt.mpr hmin), hany1, Bool.and_false,
      if_neg Bool.false_ne_true, hidx]
    by_cases hst : grace < losses.length - (K + 1)
    · rw [if_pos hst]
    · rw [if_neg hst, if_pos hgn]
      have heq : losses.length - grace = K + 1 := by omega
      have hany2 : ((List.range masses.length).any (fun i =>
          decide (tol < (npMin (npInitSlice (colAt losses i) grace)
            - npMin (colAt losses i)) / npMin (colAt losses i)))) = false := by
        rw [List.any_eq_false]
        intro i hi
        have hiM : i < masses.length := List.mem_range.mp hi
        have hclen : (colAt losses i).length = losses.length :=
          colAt_length _ _
        have hinit : npInitSlice (colAt losses i) grace
            = (colAt losses i).take (K + 1) := by
          unfold npInitSlice
          rw [if_neg hg0, hclen, heq]
        rw [hinit,
          npMin_take_eq_getD _ K (by rw [hclen]; exact hK)
            (by
              intro a ha
              exact hcol_lb i hiM a (by rwa [hclen] at ha)),
          npMin_eq_getD _ K (by rw [hclen]; exact hK)
            (by
              intro a ha
              exact hcol_lb i hiM a (by rwa [hclen] at ha)),
          sub_self, zero_div]
        simp only [decide_eq_true_eq]
        exact not_lt.mpr htol
      rw [hany2]
      rfl

/-- Witness for C4: a one-mass history, strictly decreasing for one
epoch then flat for four, with `min_epoch = 3` and `grace = 2`. -/
theorem C4_shouldEarlyStop_spec_witness :
    shouldEarlyStop [(1 : ℚ)] [[4], [2], [2], [2], [2]] 3 2 0 = true :=
  (C4_shouldEarlyStop_spec [(1 : ℚ)] [[4], [2], [2], [2], [2]] 3 2 0 1
    (by decide) (by decide) (by decide) (by decide) (by decide) (by decide)
    (by decide)).2 (by decide) (by decide)
